import Mathlib

/-!
Verification of the cascadia CSS selector core (selector.go), shallowly
embedded in Lean.  Go byte strings are modelled as lists of characters,
the html node structure as a tree, and each selector constructor of the
source as an executable Lean function translated clause by clause from
the Go code.  The parser lives outside the verified source, so `Compile`
is parameterised over an arbitrary parse function.
-/

namespace Cascadia

/-- A Go string modelled as a list of characters (one per byte). -/
abbrev Str := List Char

/-- The node kinds of the html package used by the source. -/
inductive NodeType where
  | errorNode | textNode | documentNode | elementNode | commentNode | doctypeNode
  deriving DecidableEq, Repr

/-- A (key, value) attribute pair, as in html.Attribute. -/
structure Attribute where
  key : Str
  val : Str
  deriving DecidableEq, Repr

/-- An html node: kind, tag data, attribute list, child list.  The Go node
keeps a parent pointer; in this tree embedding the parent is passed
explicitly where the source reads it (`nthChildSelector`). -/
inductive Node : Type where
  | mk : NodeType → Str → List Attribute → List Node → Node

mutual

/-- Structural equality test for nodes (models Go pointer equality on a
well-formed tree, where distinct pointers carry distinct subtrees). -/
def Node.beq : Node → Node → Bool
  | .mk t1 d1 a1 c1, .mk t2 d2 a2 c2 =>
    t1 == t2 && d1 == d2 && a1 == a2 && Node.beqList c1 c2

/-- Pointwise `Node.beq` on child lists. -/
def Node.beqList : List Node → List Node → Bool
  | [], [] => true
  | x :: xs, y :: ys => Node.beq x y && Node.beqList xs ys
  | _, _ => false

end

mutual

theorem Node.beq_refl : (n : Node) → Node.beq n n = true
  | .mk t d a c => by simp [Node.beq, Node.beqList, Node.beqList_refl c]

theorem Node.beqList_refl : (l : List Node) → Node.beqList l l = true
  | [] => by simp [Node.beqList]
  | x :: xs => by simp [Node.beqList, Node.beq_refl x, Node.beqList_refl xs]

end

mutual

theorem Node.eq_of_beq : {a b : Node} → Node.beq a b = true → a = b
  | .mk t1 d1 a1 c1, .mk t2 d2 a2 c2, h => by
    rw [Node.beq] at h
    rw [Bool.and_eq_true, Bool.and_eq_true, Bool.and_eq_true] at h
    obtain ⟨⟨⟨h1, h2⟩, h3⟩, h4⟩ := h
    rw [beq_iff_eq] at h1 h2 h3
    rw [h1, h2, h3, Node.eqList_of_beqList h4]

theorem Node.eqList_of_beqList : {l1 l2 : List Node} → Node.beqList l1 l2 = true → l1 = l2
  | [], [], _ => rfl
  | x :: xs, y :: ys, h => by
    rw [Node.beqList, Bool.and_eq_true] at h
    rw [Node.eq_of_beq h.1, Node.eqList_of_beqList h.2]
  | [], _ :: _, h => by simp [Node.beqList] at h
  | _ :: _, [], h => by simp [Node.beqList] at h

end

instance : DecidableEq Node := fun a b =>
  if h : Node.beq a b = true then isTrue (Node.eq_of_beq h)
  else isFalse (fun he => h (he ▸ Node.beq_refl a))

/-- The node's kind (html.Node.Type). -/
def Node.type : Node → NodeType
  | .mk t _ _ _ => t

/-- The node's tag data (html.Node.Data). -/
def Node.data : Node → Str
  | .mk _ d _ _ => d

/-- The node's own attribute list (html.Node.Attr). -/
def Node.attr : Node → List Attribute
  | .mk _ _ a _ => a

/-- The node's ordered child list (html.Node.Child). -/
def Node.child : Node → List Node
  | .mk _ _ _ c => c

/-- A Selector is a function which tells whether a node matches or not. -/
abbrev Selector := Node → Bool

/-- Lowercase one ASCII capital letter, as the byte-level `s[i] + ('a'-'A')`
of the source does. -/
def lowerChar (c : Char) : Char :=
  if 'A' ≤ c ∧ c ≤ 'Z' then Char.ofNat (c.toNat + 32) else c

/-- toLowerASCII returns s with all ASCII capital letters lowercased. -/
def toLowerASCII (s : Str) : Str := s.map lowerChar

/-- The error results of Compile: a parser error, or the trailing-garbage
error `fmt.Errorf("parsing %q: %d bytes left over", sel, len(sel)-p.i)`
that records the selector text and the leftover byte count. -/
inductive CompileError where
  | parseErr (msg : Str)
  | leftover (sel : Str) (count : Nat)
  deriving DecidableEq, Repr

/-- Compile parses a selector and returns, if successful, a Selector.
The simple-selector-sequence parser itself is outside the verified
source, so it is a parameter: `parse sel` yields either an error or the
compiled selector together with the final cursor offset `p.i`. -/
def Compile (parse : Str → Except Str (Selector × Nat)) (sel : Str) :
    Except CompileError Selector :=
  match parse sel with
  | .error e => .error (.parseErr e)
  | .ok (compiled, i) =>
    if i < sel.length then .error (.leftover sel (sel.length - i))
    else .ok compiled

mutual

/-- MatchAll returns a slice of the nodes that match the selector,
from n and its children. -/
def matchAll (s : Selector) : Node → List Node
  | .mk t d a c =>
    (if s (.mk t d a c) then [Node.mk t d a c] else []) ++ matchAllList s c

/-- The `for _, child := range n.Child` loop of MatchAll. -/
def matchAllList (s : Selector) : List Node → List Node
  | [] => []
  | x :: rest => matchAll s x ++ matchAllList s rest

end

mutual

/-- Specification-side: the pre-order depth-first listing of a tree
(a node first, then each child's subtree left-to-right). -/
def preorder : Node → List Node
  | .mk t d a c => Node.mk t d a c :: preorderList c

/-- Pre-order listing of a forest, left-to-right. -/
def preorderList : List Node → List Node
  | [] => []
  | x :: rest => preorder x ++ preorderList rest

end

mutual

/-- MatchAll instrumented with a tally of predicate applications: the
same recursion as `matchAll`, also returning how many times the
predicate was evaluated. -/
def matchAllCount (s : Selector) : Node → List Node × Nat
  | .mk t d a c =>
    let r := matchAllListCount s c
    ((if s (.mk t d a c) then [Node.mk t d a c] else []) ++ r.1, 1 + r.2)

/-- The child loop of `matchAllCount`. -/
def matchAllListCount (s : Selector) : List Node → List Node × Nat
  | [] => ([], 0)
  | x :: rest =>
    let r1 := matchAllCount s x
    let r2 := matchAllListCount s rest
    (r1.1 ++ r2.1, r1.2 + r2.2)

end

/-- typeSelector returns a Selector that matches nodes with a given tag name:
`n.Type == html.ElementNode && n.Data == tag` with tag lowercased at
construction. -/
def typeSelector (tag : Str) : Selector :=
  let t := toLowerASCII tag
  fun n => decide (n.type = NodeType.elementNode ∧ n.data = t)

/-- The attribute loop shared (textually) by the attribute selectors other
than includes: scan `n.Attr` in order and, at the first pair whose key
equals the given key, return the comparison `f` of that pair's value;
return false if the loop ends. -/
def firstKeyLoop (k : Str) (f : Str → Bool) : List Attribute → Bool
  | [] => false
  | a :: rest => if a.key = k then f a.val else firstKeyLoop k f rest

/-- attributeExistsSelector returns a Selector that matches nodes that have
an attribute named key (`if a.Key == key { return true }`). -/
def attributeExistsSelector (key : Str) : Selector :=
  let k := toLowerASCII key
  fun n => firstKeyLoop k (fun _ => true) n.attr

/-- attributeEqualsSelector returns a Selector that matches nodes where
the attribute named key has the value val (`return a.Val == val`). -/
def attributeEqualsSelector (key val : Str) : Selector :=
  let k := toLowerASCII key
  fun n => firstKeyLoop k (fun s => decide (s = val)) n.attr

/-- The first index in s of one of the five characters of
`strings.IndexAny(s, " \t\r\n\f")`. -/
def isSpaceGo (c : Char) : Bool :=
  c = ' ' || c = '\t' || c = '\r' || c = '\n' || c = '\x0c'

/-- strings.IndexAny over the five-character whitespace set: index of the
first whitespace character of s, if any. -/
def indexAny : Str → Option Nat
  | [] => none
  | c :: rest => if isSpaceGo c then some 0 else (indexAny rest).map (· + 1)

/-- The inner `for s != ""` loop of attributeIncludesSelector: `some b`
models `return b` from the enclosing closure, `none` models falling out
of the loop (so the attribute scan continues). -/
def includesScan (val : Str) (s : Str) : Option Bool :=
  if hs : s = [] then none
  else
    match indexAny s with
    | none => some (decide (s = val))
    | some i =>
      if s.take i = val then some true
      else includesScan val (s.drop (i + 1))
termination_by s.length
decreasing_by
  simp only [List.length_drop]
  have : 0 < s.length := List.length_pos.mpr hs
  omega

/-- The outer `for _, a := range n.Attr` loop of attributeIncludesSelector. -/
def includesOuter (k val : Str) : List Attribute → Bool
  | [] => false
  | a :: rest =>
    if a.key = k then
      match includesScan val a.val with
      | some b => b
      | none => includesOuter k val rest
    else includesOuter k val rest

/-- attributeIncludesSelector returns a Selector that matches nodes where
the attribute named key is a whitespace-separated list that includes val. -/
def attributeIncludesSelector (key val : Str) : Selector :=
  let k := toLowerASCII key
  fun n => includesOuter k val n.attr

/-- The per-value comparison of attributeDashmatchSelector: equality, the
length guard, then `a.Val[:len(val)] == val && a.Val[len(val)] == '-'`. -/
def dashmatchVal (val s : Str) : Bool :=
  if s = val then true
  else if s.length ≤ val.length then false
  else if s.take val.length = val ∧ s.get? val.length = some '-' then true
  else false

/-- attributeDashmatchSelector returns a Selector that matches nodes where
the attribute named key equals val or starts with val plus a hyphen. -/
def attributeDashmatchSelector (key val : Str) : Selector :=
  let k := toLowerASCII key
  fun n => firstKeyLoop k (fun s => dashmatchVal val s) n.attr

/-- attributePrefixSelector returns a Selector that matches nodes where
the attribute named key starts with val (`strings.HasPrefix`). -/
def attributePrefixSelector (key val : Str) : Selector :=
  let k := toLowerASCII key
  fun n => firstKeyLoop k (fun s => val.isPrefixOf s) n.attr

/-- attributeSuffixSelector returns a Selector that matches nodes where
the attribute named key ends with val (`strings.HasSuffix`). -/
def attributeSuffixSelector (key val : Str) : Selector :=
  let k := toLowerASCII key
  fun n => firstKeyLoop k (fun s => val.isSuffixOf s) n.attr

/-- strings.Contains: sub occurs contiguously somewhere in s. -/
def containsSub (s sub : Str) : Bool :=
  match s with
  | [] => sub.isPrefixOf ([] : Str)
  | _ :: rest => sub.isPrefixOf s || containsSub rest sub

/-- attributeSubstringSelector returns a Selector that matches nodes where
the attribute named key contains val (`strings.Contains`). -/
def attributeSubstringSelector (key val : Str) : Selector :=
  let k := toLowerASCII key
  fun n => firstKeyLoop k (fun s => containsSub s val) n.attr

/-- intersectionSelector returns a selector that matches nodes that match
both a and b. -/
def intersectionSelector (a b : Selector) : Selector :=
  fun n => a n && b n

/-- negatedSelector returns a selector that matches nodes that do not match a. -/
def negatedSelector (a : Selector) : Selector :=
  fun n => !a n

/-- The `for i = 0; i < len(c); i++ { if c[i] == n { break } }` search of
nthChildSelector: index of the first occurrence of n in c, or `c.length`
when n does not occur. -/
def findChildIdx (c : List Node) (n : Node) : Nat :=
  match c with
  | [] => 0
  | x :: rest => if x = n then 0 else findChildIdx rest n + 1

/-- nthChildSelector returns a selector that implements :nth-child(an+b);
if last is true, implements :nth-last-child instead.  The Go node's
parent pointer is passed explicitly as `parent` (the parent's child list
is `parent.child`); Go's `%` and `/` on int are truncated division,
`Int.tmod` and `Int.tdiv`. -/
def nthChildSelector (a b : Int) (last : Bool) : Option Node → Node → Bool
  | none, _ => false
  | some p, n =>
    let c := p.child
    let i := findChildIdx c n
    if i = c.length then false
    else
      let i1 : Int := if last then (c.length : Int) - i else (i : Int) + 1
      let i2 : Int := i1 - b
      if a = 0 then decide (i2 = 0)
      else decide (i2.tmod a = 0 ∧ 0 ≤ i2.tdiv a)

/-- Specification-side: the §4.3 match rule applied to the shifted
position q — for a = 0 exactly q = 0, otherwise a divides q with a
non-negative quotient. -/
def nthMatchesSpec (a q : Int) : Prop :=
  if a = 0 then q = 0 else a ∣ q ∧ 0 ≤ q / a

instance (a q : Int) : Decidable (nthMatchesSpec a q) := by
  unfold nthMatchesSpec
  infer_instance

/-- Specification-side: split a string on the five ASCII whitespace
characters into the (possibly empty) tokens between them. -/
def wsSplit : Str → List Str
  | [] => [[]]
  | c :: rest =>
    if isSpaceGo c then [] :: wsSplit rest
    else
      match wsSplit rest with
      | t :: ts => (c :: t) :: ts
      | [] => [[c]]

/-! ### Helper lemmas about the attribute loops -/

theorem firstKeyLoop_of_no_key {k : Str} {l : List Attribute} (f : Str → Bool)
    (h : ∀ a ∈ l, a.key ≠ k) : firstKeyLoop k f l = false := by
  induction l with
  | nil => rfl
  | cons a rest ih =>
    rw [firstKeyLoop, if_neg (h a (List.mem_cons_self a rest))]
    exact ih (fun x hx => h x (List.mem_cons_of_mem a hx))

theorem firstKeyLoop_append {k : Str} (f : Str → Bool) {pre post : List Attribute}
    {a : Attribute} (hpre : ∀ x ∈ pre, x.key ≠ k) (ha : a.key = k) :
    firstKeyLoop k f (pre ++ a :: post) = f a.val := by
  induction pre with
  | nil => rw [List.nil_append, firstKeyLoop, if_pos ha]
  | cons x rest ih =>
    rw [List.cons_append, firstKeyLoop, if_neg (hpre x (List.mem_cons_self x rest))]
    exact ih (fun y hy => hpre y (List.mem_cons_of_mem x hy))

theorem firstKeyLoop_iff {k : Str} (f : Str → Bool) (l : List Attribute) :
    firstKeyLoop k f l = true ↔
      ∃ pre a post, l = pre ++ a :: post ∧ (∀ x ∈ pre, x.key ≠ k) ∧
        a.key = k ∧ f a.val = true := by
  induction l with
  | nil =>
    simp only [firstKeyLoop, Bool.false_eq_true, false_iff]
    rintro ⟨pre, a, post, hdec, -, -, -⟩
    exact List.noConfusion (List.append_eq_nil.mp hdec.symm).2
  | cons b rest ih =>
    by_cases hb : b.key = k
    · rw [firstKeyLoop, if_pos hb]
      constructor
      · intro hf
        exact ⟨[], b, rest, rfl, by simp, hb, hf⟩
      · rintro ⟨pre, a, post, hdec, hpre, ha, hf⟩
        cases pre with
        | nil =>
          rw [List.nil_append] at hdec
          injection hdec with h1 h2
          rw [h1]
          exact hf
        | cons y pre' =>
          rw [List.cons_append] at hdec
          injection hdec with h1 h2
          exact absurd hb (h1 ▸ hpre y (List.mem_cons_self y pre'))
    · rw [firstKeyLoop, if_neg hb, ih]
      constructor
      · rintro ⟨pre, a, post, hdec, hpre, ha, hf⟩
        refine ⟨b :: pre, a, post, by rw [hdec, List.cons_append], ?_, ha, hf⟩
        intro x hx
        rcases List.mem_cons.mp hx with h1 | h1
        · exact h1 ▸ hb
        · exact hpre x h1
      · rintro ⟨pre, a, post, hdec, hpre, ha, hf⟩
        cases pre with
        | nil =>
          rw [List.nil_append] at hdec
          injection hdec with h1 h2
          exact absurd (h1 ▸ ha) hb
        | cons y pre' =>
          rw [List.cons_append] at hdec
          injection hdec with h1 h2
          exact ⟨pre', a, post, h2, fun x hx => hpre x (List.mem_cons_of_mem y hx), ha, hf⟩

theorem includesOuter_of_no_key {k val : Str} {l : List Attribute}
    (h : ∀ a ∈ l, a.key ≠ k) : includesOuter k val l = false := by
  induction l with
  | nil => rfl
  | cons a rest ih =>
    rw [includesOuter, if_neg (h a (List.mem_cons_self a rest))]
    exact ih (fun x hx => h x (List.mem_cons_of_mem a hx))

theorem includesOuter_append {k val : Str} {pre post : List Attribute} {a : Attribute}
    (hpre : ∀ x ∈ pre, x.key ≠ k) (ha : a.key = k) :
    includesOuter k val (pre ++ a :: post) =
      match includesScan val a.val with
      | some b => b
      | none => includesOuter k val post := by
  induction pre with
  | nil => rw [List.nil_append, includesOuter, if_pos ha]
  | cons x rest ih =>
    rw [List.cons_append, includesOuter, if_neg (hpre x (List.mem_cons_self x rest))]
    exact ih (fun y hy => hpre y (List.mem_cons_of_mem x hy))

/-! ### Helper lemmas about the whitespace scan -/

theorem indexAny_none {s : Str} (h : indexAny s = none) :
    ∀ c ∈ s, isSpaceGo c = false := by
  induction s with
  | nil => simp
  | cons c rest ih =>
    rw [indexAny] at h
    by_cases hc : isSpaceGo c = true
    · rw [if_pos hc] at h
      exact absurd h (by simp)
    · rw [if_neg hc] at h
      intro x hx
      rcases List.mem_cons.mp hx with h1 | h1
      · rw [h1]
        exact Bool.eq_false_iff.mpr hc
      · exact ih (Option.map_eq_none'.mp h) x h1

theorem indexAny_some {s : Str} {i : Nat} (h : indexAny s = some i) :
    ∃ w, s = s.take i ++ w :: s.drop (i + 1) ∧ isSpaceGo w = true ∧
      ∀ c ∈ s.take i, isSpaceGo c = false := by
  induction s generalizing i with
  | nil => simp [indexAny] at h
  | cons c rest ih =>
    rw [indexAny] at h
    by_cases hc : isSpaceGo c = true
    · rw [if_pos hc] at h
      have h0 : i = 0 := by
        have := Option.some.inj h
        omega
      subst h0
      exact ⟨c, by simp, hc, by simp⟩
    · rw [if_neg hc] at h
      obtain ⟨j, hj, hji⟩ : ∃ j, indexAny rest = some j ∧ j + 1 = i := by
        cases ho : indexAny rest with
        | none => rw [ho] at h; simp at h
        | some j =>
          rw [ho] at h
          simp at h
          exact ⟨j, rfl, h⟩
      subst hji
      obtain ⟨w, hw1, hw2, hw3⟩ := ih hj
      refine ⟨w, ?_, hw2, ?_⟩
      · rw [List.take_succ_cons, List.drop_succ_cons, List.cons_append]
        rw [← hw1]
      · intro x hx
        rw [List.take_succ_cons] at hx
        rcases List.mem_cons.mp hx with h1 | h1
        · rw [h1]
          exact Bool.eq_false_iff.mpr hc
        · exact hw3 x h1

theorem wsSplit_no_ws {s : Str} (h : ∀ c ∈ s, isSpaceGo c = false) :
    wsSplit s = [s] := by
  induction s with
  | nil => rfl
  | cons c rest ih =>
    have hc : isSpaceGo c = false := h c (List.mem_cons_self c rest)
    have hr : wsSplit rest = [rest] := ih (fun x hx => h x (List.mem_cons_of_mem c hx))
    simp [wsSplit, hc, hr]

theorem wsSplit_decomp {s : Str} {i : Nat} (hi : indexAny s = some i) :
    wsSplit s = s.take i :: wsSplit (s.drop (i + 1)) := by
  induction s generalizing i with
  | nil => simp [indexAny] at hi
  | cons c rest ih =>
    rw [indexAny] at hi
    by_cases hc : isSpaceGo c = true
    · rw [if_pos hc] at hi
      have h0 : i = 0 := by
        have := Option.some.inj hi
        omega
      subst h0
      simp [wsSplit, hc]
    · rw [if_neg hc] at hi
      obtain ⟨j, hj, hji⟩ : ∃ j, indexAny rest = some j ∧ j + 1 = i := by
        cases ho : indexAny rest with
        | none => rw [ho] at hi; simp at hi
        | some j =>
          rw [ho] at hi
          simp at hi
          exact ⟨j, rfl, hi⟩
      subst hji
      have hrec := ih hj
      rw [List.take_succ_cons, List.drop_succ_cons]
      simp [wsSplit, hc, hrec]

theorem includesScan_some_true_iff {val : Str} (hval : val ≠ []) :
    ∀ s, includesScan val s = some true ↔ val ∈ wsSplit s := by
  have H : ∀ m, ∀ s : Str, s.length = m →
      (includesScan val s = some true ↔ val ∈ wsSplit s) := by
    intro m
    induction m using Nat.strong_induction_on with
    | _ m ih =>
      intro s hs
      by_cases hnil : s = []
      · subst hnil
        rw [includesScan]
        simp [wsSplit]
        exact hval
      · rw [includesScan, dif_neg hnil]
        cases hidx : indexAny s with
        | none =>
          rw [wsSplit_no_ws (indexAny_none hidx)]
          simp [eq_comm]
        | some i =>
          rw [wsSplit_decomp hidx]
          change (if s.take i = val then some true
              else includesScan val (s.drop (i + 1))) = some true ↔
            val ∈ s.take i :: wsSplit (s.drop (i + 1))
          by_cases ht : s.take i = val
          · rw [if_pos ht]
            simp [ht]
          · rw [if_neg ht]
            have hlen : (s.drop (i + 1)).length < m := by
              rw [List.length_drop]
              have hpos : 0 < s.length := List.length_pos.mpr hnil
              omega
            rw [ih _ (hs ▸ hlen) _ rfl, List.mem_cons]
            constructor
            · exact Or.inr
            · rintro (h | h)
              · exact absurd h.symm ht
              · exact h
  exact fun s => H s.length s rfl

theorem includesScan_not_some_true_of_ws {val : Str}
    (hws : ∃ c ∈ val, isSpaceGo c = true) :
    ∀ s, includesScan val s ≠ some true := by
  have H : ∀ m, ∀ s : Str, s.length = m → includesScan val s ≠ some true := by
    intro m
    induction m using Nat.strong_induction_on with
    | _ m ih =>
      intro s hs
      by_cases hnil : s = []
      · subst hnil
        rw [includesScan]
        simp
      · rw [includesScan, dif_neg hnil]
        cases hidx : indexAny s with
        | none =>
          intro h
          have hsv : s = val := by simpa using h
          obtain ⟨c, hc, hcw⟩ := hws
          have := indexAny_none hidx c (hsv ▸ hc)
          rw [this] at hcw
          exact Bool.noConfusion hcw
        | some i =>
          change (if s.take i = val then some true
              else includesScan val (s.drop (i + 1))) ≠ some true
          by_cases ht : s.take i = val
          · obtain ⟨c, hc, hcw⟩ := hws
            obtain ⟨-, -, -, hnw⟩ := indexAny_some hidx
            have := hnw c (ht ▸ hc)
            rw [this] at hcw
            exact Bool.noConfusion hcw
          · rw [if_neg ht]
            have hlen : (s.drop (i + 1)).length < m := by
              rw [List.length_drop]
              have hpos : 0 < s.length := List.length_pos.mpr hnil
              omega
            exact ih _ (hs ▸ hlen) _ rfl
  exact fun s => H s.length s rfl

theorem includesScan_none_decomp {val : Str} :
    ∀ s, includesScan val s = none →
      s = [] ∨ ∃ t c, s = t ++ [c] ∧ isSpaceGo c = true := by
  have H : ∀ m, ∀ s : Str, s.length = m → includesScan val s = none →
      s = [] ∨ ∃ t c, s = t ++ [c] ∧ isSpaceGo c = true := by
    intro m
    induction m using Nat.strong_induction_on with
    | _ m ih =>
      intro s hs hnone
      by_cases hnil : s = []
      · exact Or.inl hnil
      · rw [includesScan, dif_neg hnil] at hnone
        cases hidx : indexAny s with
        | none =>
          rw [hidx] at hnone
          exact absurd hnone (by simp)
        | some i =>
          rw [hidx] at hnone
          change (if s.take i = val then some true
              else includesScan val (s.drop (i + 1))) = none at hnone
          by_cases ht : s.take i = val
          · rw [if_pos ht] at hnone
            exact absurd hnone (by simp)
          · rw [if_neg ht] at hnone
            have hlen : (s.drop (i + 1)).length < m := by
              rw [List.length_drop]
              have hpos : 0 < s.length := List.length_pos.mpr hnil
              omega
            obtain ⟨w, hw1, hw2, -⟩ := indexAny_some hidx
            rcases ih _ (hs ▸ hlen) _ rfl hnone with hdrop | ⟨t, c, hdec, hcw⟩
            · refine Or.inr ⟨s.take i, w, ?_, hw2⟩
              conv_lhs => rw [hw1]
              rw [hdrop]
            · refine Or.inr ⟨s.take i ++ w :: t, c, ?_, hcw⟩
              conv_lhs => rw [hw1]
              rw [hdec]
              simp
  exact fun s => H s.length s rfl

/-! ### Helper lemmas about the nth-child sibling search -/

theorem findChildIdx_of_not_mem {c : List Node} {n : Node} (h : n ∉ c) :
    findChildIdx c n = c.length := by
  induction c with
  | nil => rfl
  | cons x rest ih =>
    rw [findChildIdx, if_neg (fun he => h (List.mem_cons.mpr (Or.inl he.symm)))]
    rw [ih (fun hm => h (List.mem_cons_of_mem x hm))]
    rfl

theorem findChildIdx_of_first {c : List Node} {n : Node} {i : Nat}
    (hget : c.get? i = some n) (hfirst : ∀ j, j < i → c.get? j ≠ some n) :
    findChildIdx c n = i := by
  induction c generalizing i with
  | nil => simp at hget
  | cons x rest ih =>
    cases i with
    | zero =>
      rw [List.get?_cons_zero] at hget
      rw [findChildIdx, if_pos (Option.some.inj hget)]
    | succ j =>
      have hx : ¬(x = n) := by
        intro he
        exact hfirst 0 (Nat.succ_pos j) (by rw [List.get?_cons_zero, he])
      rw [findChildIdx, if_neg hx]
      rw [List.get?_cons_succ] at hget
      rw [ih hget (fun j' hj' => by
        have := hfirst (j' + 1) (by omega)
        rwa [List.get?_cons_succ] at this)]

/-! ### Helper lemmas about the traversal -/

mutual

theorem matchAll_eq_filter (s : Selector) (n : Node) :
    matchAll s n = (preorder n).filter s := by
  match n with
  | .mk t d a c =>
    rw [matchAll, preorder, List.filter_cons, matchAllList_eq_filter s c]
    cases h : s (Node.mk t d a c) <;> simp [h]

theorem matchAllList_eq_filter (s : Selector) (l : List Node) :
    matchAllList s l = (preorderList l).filter s := by
  match l with
  | [] => rfl
  | x :: rest =>
    rw [matchAllList, preorderList, List.filter_append,
      matchAll_eq_filter s x, matchAllList_eq_filter s rest]

end

mutual

theorem matchAllCount_eq (s : Selector) (n : Node) :
    matchAllCount s n = (matchAll s n, (preorder n).length) := by
  match n with
  | .mk t d a c =>
    rw [matchAllCount, matchAllListCount_eq s c]
    simp [matchAll, preorder, Nat.add_comm]

theorem matchAllListCount_eq (s : Selector) (l : List Node) :
    matchAllListCount s l = (matchAllList s l, (preorderList l).length) := by
  match l with
  | [] => rfl
  | x :: rest =>
    rw [matchAllListCount, matchAllCount_eq s x, matchAllListCount_eq s rest]
    simp [matchAllList, preorderList]

end

/-! ### Arithmetic bridge between Go division and the specification -/

theorem tmod_tdiv_spec {a q : Int} (ha : a ≠ 0) :
    (q.tmod a = 0 ∧ 0 ≤ q.tdiv a) ↔ (a ∣ q ∧ 0 ≤ q / a) := by
  constructor
  · rintro ⟨h1, h2⟩
    have hd : a ∣ q := Int.dvd_of_tmod_eq_zero h1
    rw [← Int.tdiv_eq_ediv_of_dvd hd]
    exact ⟨hd, h2⟩
  · rintro ⟨hd, h2⟩
    refine ⟨Int.tmod_eq_zero_of_dvd hd, ?_⟩
    rw [Int.tdiv_eq_ediv_of_dvd hd]
    exact h2

/-! ### Concrete nodes used in witnesses and counterexamples -/

/-- An element whose stored tag name is the uppercase "DIV". -/
def divUpperNode : Node := .mk .elementNode ['D', 'I', 'V'] [] []

/-- A node with two lang attributes; only the first is ever compared. -/
def dupLangNode : Node :=
  .mk .elementNode ['p'] [⟨['l','a','n','g'], ['f','r']⟩, ⟨['l','a','n','g'], ['e','n']⟩] []

/-- A node with two k attributes whose first value has no whitespace. -/
def dupIncNode : Node :=
  .mk .elementNode ['p'] [⟨['k'], ['x']⟩, ⟨['k'], ['v']⟩] []

/-- A node carrying only the second attribute of `dupIncNode`. -/
def sndIncNode : Node := .mk .elementNode ['p'] [⟨['k'], ['v']⟩] []

/-- Three distinct sibling elements. -/
def liA : Node := .mk .elementNode ['a'] [] []

def liB : Node := .mk .elementNode ['b'] [] []

def liC : Node := .mk .elementNode ['c'] [] []

/-- A parent whose child list is `[liA, liB, liC]`. -/
def ulW : Node := .mk .elementNode ['u', 'l'] [] [liA, liB, liC]

/-- A node that does not occur among `ulW`'s children. -/
def outsiderW : Node := .mk .textNode ['z'] [] []

/-- A node with a single attribute of key x. -/
def attrNodeW : Node := .mk .elementNode ['p'] [⟨['x'], ['y']⟩] []

/-- A node whose t attribute holds the two-token value "a v". -/
def incNodeW : Node := .mk .elementNode ['p'] [⟨['t'], ['a', ' ', 'v']⟩] []

/-- A node with one differently-keyed attribute, then two k attributes. -/
def c10NodeW : Node :=
  .mk .elementNode ['p'] [⟨['a'], ['z']⟩, ⟨['k'], ['v']⟩, ⟨['k'], ['w']⟩] []

/-! ### The claims -/

/-- Claim C2: for every predicate s and node n, `matchAll s n` equals the
pre-order depth-first listing of the tree rooted at n filtered by s — n
comes first iff s accepts it, each child subtree's results follow in
child-list order regardless of n's own result, and the instrumented
traversal applies the predicate exactly once per node of the pre-order
listing; ancestors therefore precede their descendants in the output. -/
theorem c2_matchAll_is_filtered_preorder (s : Selector) (n : Node) :
    matchAll s n = (preorder n).filter s ∧
    (matchAllCount s n).1 = matchAll s n ∧
    (matchAllCount s n).2 = (preorder n).length := by
  refine ⟨matchAll_eq_filter s n, ?_, ?_⟩ <;> rw [matchAllCount_eq]

/-- Claim C8: matching never fails — every predicate of the embedding is a
total function; in particular `nthChildSelector` applied to a node with
no parent returns false (a non-match) for every formula (a, b) and flag. -/
theorem c8_nthChild_no_parent (a b : Int) (last : Bool) (n : Node) :
    nthChildSelector a b last none n = false := rfl

/-- Claim C9: for every formula (a, b) and flag, a node that has a parent
but does not occur in that parent's child list is a non-match: the linear
search runs off the end of the child list and the selector returns false. -/
theorem c9_nthChild_orphan (a b : Int) (last : Bool) (p n : Node)
    (h : n ∉ p.child) :
    nthChildSelector a b last (some p) n = false := by
  simp [nthChildSelector, findChildIdx_of_not_mem h]

theorem c9_witness : nthChildSelector 2 0 true (some ulW) outsiderW = false :=
  c9_nthChild_orphan 2 0 true ulW outsiderW (by decide)

/-- Claim C3: whenever the simple-selector-sequence parser succeeds but
leaves i < length bytes consumed, Compile returns the error carrying the
original selector text and the exact leftover byte count, and never a
selector compiled from the consumed prefix. -/
theorem c3_compile_rejects_leftover (parse : Str → Except Str (Selector × Nat))
    (sel : Str) (c : Selector) (i : Nat)
    (hp : parse sel = .ok (c, i)) (hi : i < sel.length) :
    Compile parse sel = .error (.leftover sel (sel.length - i)) ∧
    ∀ s', Compile parse sel ≠ .ok s' := by
  have h1 : Compile parse sel = .error (.leftover sel (sel.length - i)) := by
    rw [Compile, hp]
    change (if i < sel.length
        then (Except.error (CompileError.leftover sel (sel.length - i)) :
          Except CompileError Selector)
        else .ok c) = _
    rw [if_pos hi]
  refine ⟨h1, fun s' hok => ?_⟩
  rw [h1] at hok
  exact Except.noConfusion hok

theorem c3_witness :
    Compile (fun _ => .ok (fun _ => true, 1)) ['a', 'b'] =
      .error (.leftover ['a', 'b'] 1) ∧
    ∀ s', Compile (fun _ => .ok (fun _ => true, 1)) ['a', 'b'] ≠ .ok s' :=
  c3_compile_rejects_leftover (fun _ => .ok (fun _ => true, 1)) ['a', 'b']
    (fun _ => true) 1 rfl (by decide)

/-- Claim C6 counterexample: the stored tag name "DIV" equals "div" up to
ASCII case, yet the type selector built from "div" does not match it —
only the selector's side is case-folded, the stored tag is compared
byte-exactly. -/
theorem c6_counterexample :
    typeSelector ['d', 'i', 'v'] divUpperNode = false ∧
    divUpperNode.type = NodeType.elementNode ∧
    toLowerASCII divUpperNode.data = toLowerASCII ['d', 'i', 'v'] := by decide

/-- Claim C6 (amended): typeSelector t is true on n exactly when n is an
element node whose stored tag name equals the ASCII-lowercasing of t —
case-insensitive in the selector's tag, byte-exact in the stored tag. -/
theorem c6_typeSelector_exact_lower (tag : Str) (n : Node) :
    typeSelector tag n = true ↔
      n.type = NodeType.elementNode ∧ n.data = toLowerASCII tag := by
  simp [typeSelector]

/-- The dashmatch value comparison succeeds exactly on val itself or on
val followed by a hyphen and any suffix. -/
theorem dashmatchVal_iff (val s : Str) :
    dashmatchVal val s = true ↔ s = val ∨ ∃ t, s = val ++ '-' :: t := by
  rw [dashmatchVal]
  by_cases h1 : s = val
  · rw [if_pos h1]
    simp [h1]
  · rw [if_neg h1]
    by_cases h2 : s.length ≤ val.length
    · rw [if_pos h2]
      simp only [Bool.false_eq_true, false_iff]
      rintro (h | ⟨t, ht⟩)
      · exact h1 h
      · rw [ht, List.length_append, List.length_cons] at h2
        omega
    · rw [if_neg h2]
      by_cases h3 : s.take val.length = val ∧ s.get? val.length = some '-'
      · rw [if_pos h3]
        simp only [true_iff]
        obtain ⟨ht, hg⟩ := h3
        obtain ⟨hlt, hgv⟩ := List.get?_eq_some.mp hg
        refine Or.inr ⟨s.drop (val.length + 1), ?_⟩
        conv_lhs => rw [← List.take_append_drop val.length s]
        rw [ht, List.drop_eq_get_cons hlt, hgv]
      · rw [if_neg h3]
        simp only [Bool.false_eq_true, false_iff]
        rintro (h | ⟨t, ht⟩)
        · exact h1 h
        · refine h3 ⟨?_, ?_⟩
          · rw [ht, List.take_left' rfl]
          · rw [ht, List.get?_append_right (Nat.le_refl val.length)]
            simp

/-- Claim C5 counterexample: a node whose second lang attribute is exactly
"en" — so the node has an attribute with key lang whose value equals the
sought value — yet the dashmatch selector returns false, because only the
first lang attribute ("fr") is ever compared. -/
theorem c5_counterexample :
    attributeDashmatchSelector ['l','a','n','g'] ['e','n'] dupLangNode = false ∧
    ∃ a ∈ dupLangNode.attr,
      a.key = toLowerASCII ['l','a','n','g'] ∧ a.val = ['e','n'] := by decide

/-- Claim C5 (amended): the dashmatch predicate is true exactly when the
first attribute carrying the (lowercased) key — every earlier attribute
having a different key — has a value equal to v, or equal to v followed
immediately by a hyphen and an arbitrary suffix; so with a single lang
attribute it matches "en" and "en-gb" but not "enough" or "fr-en". -/
theorem c5_dashmatch_first_key (key val : Str) (n : Node) :
    attributeDashmatchSelector key val n = true ↔
      ∃ pre a post, n.attr = pre ++ a :: post ∧
        (∀ x ∈ pre, x.key ≠ toLowerASCII key) ∧ a.key = toLowerASCII key ∧
        (a.val = val ∨ ∃ t, a.val = val ++ '-' :: t) := by
  show firstKeyLoop (toLowerASCII key) (fun s => dashmatchVal val s) n.attr = true ↔ _
  rw [firstKeyLoop_iff]
  constructor
  · rintro ⟨pre, a, post, hdec, hpre, ha, hf⟩
    exact ⟨pre, a, post, hdec, hpre, ha, (dashmatchVal_iff val a.val).mp hf⟩
  · rintro ⟨pre, a, post, hdec, hpre, ha, hf⟩
    exact ⟨pre, a, post, hdec, hpre, ha, (dashmatchVal_iff val a.val).mpr hf⟩

/-- Claim C7: every attribute predicate whose (lowercased) key occurs on no
attribute of the node's own list returns false — absence is never a match —
and every attribute predicate depends on nothing but the node's own
attribute list. -/
theorem c7_attribute_absent_and_local (key val : Str) :
    (∀ n : Node, (∀ a ∈ n.attr, a.key ≠ toLowerASCII key) →
      attributeExistsSelector key n = false ∧
      attributeEqualsSelector key val n = false ∧
      attributeIncludesSelector key val n = false ∧
      attributeDashmatchSelector key val n = false ∧
      attributePrefixSelector key val n = false ∧
      attributeSuffixSelector key val n = false ∧
      attributeSubstringSelector key val n = false) ∧
    (∀ n m : Node, n.attr = m.attr →
      attributeExistsSelector key n = attributeExistsSelector key m ∧
      attributeEqualsSelector key val n = attributeEqualsSelector key val m ∧
      attributeIncludesSelector key val n = attributeIncludesSelector key val m ∧
      attributeDashmatchSelector key val n = attributeDashmatchSelector key val m ∧
      attributePrefixSelector key val n = attributePrefixSelector key val m ∧
      attributeSuffixSelector key val n = attributeSuffixSelector key val m ∧
      attributeSubstringSelector key val n = attributeSubstringSelector key val m) := by
  constructor
  · intro n h
    exact ⟨firstKeyLoop_of_no_key _ h, firstKeyLoop_of_no_key _ h,
      includesOuter_of_no_key h, firstKeyLoop_of_no_key _ h,
      firstKeyLoop_of_no_key _ h, firstKeyLoop_of_no_key _ h,
      firstKeyLoop_of_no_key _ h⟩
  · intro n m h
    refine ⟨?_, ?_, ?_, ?_, ?_, ?_, ?_⟩ <;>
      simp only [attributeExistsSelector, attributeEqualsSelector,
        attributeIncludesSelector, attributeDashmatchSelector,
        attributePrefixSelector, attributeSuffixSelector,
        attributeSubstringSelector, h]

theorem c7_witness :
    attributeExistsSelector ['k'] attrNodeW = false ∧
    attributeEqualsSelector ['k'] ['v'] attrNodeW = false ∧
    attributeIncludesSelector ['k'] ['v'] attrNodeW = false ∧
    attributeDashmatchSelector ['k'] ['v'] attrNodeW = false ∧
    attributePrefixSelector ['k'] ['v'] attrNodeW = false ∧
    attributeSuffixSelector ['k'] ['v'] attrNodeW = false ∧
    attributeSubstringSelector ['k'] ['v'] attrNodeW = false :=
  (c7_attribute_absent_and_local ['k'] ['v']).1 attrNodeW (by decide)

/-- Claim C1: for a node occurring (first) at 1-based position pos in its
parent's child list, the nth-child selector with formula (a, b) and flag
last matches exactly when, for q = (if last then childCount − pos + 1
else pos) − b, either a = 0 and q = 0, or a ≠ 0, a divides q evenly and
the quotient q / a is non-negative. -/
theorem c1_nthChild_an_plus_b (a b : Int) (last : Bool) (p n : Node) (pos : Nat)
    (hpos : 1 ≤ pos)
    (hget : p.child.get? (pos - 1) = some n)
    (hfirst : ∀ j, j < pos - 1 → p.child.get? j ≠ some n) :
    nthChildSelector a b last (some p) n = true ↔
      nthMatchesSpec a
        ((if last then (p.child.length : Int) - pos + 1 else (pos : Int)) - b) := by
  obtain ⟨hlt, -⟩ := List.get?_eq_some.mp hget
  have hidx : findChildIdx p.child n = pos - 1 := findChildIdx_of_first hget hfirst
  have hne : findChildIdx p.child n ≠ p.child.length := by
    rw [hidx]
    omega
  simp only [nthChildSelector, hidx, if_neg (hidx ▸ hne)]
  have hpos_eq :
      (if last then (p.child.length : Int) - ((pos - 1 : Nat) : Int)
       else ((pos - 1 : Nat) : Int) + 1) =
      (if last then (p.child.length : Int) - pos + 1 else (pos : Int)) := by
    cases last
    · change ((pos - 1 : Nat) : Int) + 1 = (pos : Int)
      omega
    · change (p.child.length : Int) - ((pos - 1 : Nat) : Int) =
        (p.child.length : Int) - pos + 1
      omega
  rw [hpos_eq, nthMatchesSpec]
  by_cases ha : a = 0
  · rw [if_pos ha, if_pos ha, decide_eq_true_eq]
  · rw [if_neg ha, if_neg ha, decide_eq_true_eq, tmod_tdiv_spec ha]

theorem c1_witness : nthChildSelector (-1) 2 false (some ulW) liA = true :=
  (c1_nthChild_an_plus_b (-1) 2 false ulW liA 1 (by decide) (by decide)
    (fun j hj => absurd hj (by omega))).mpr (by decide)

/-- On an attribute list carrying the key at most once, the includes scan
is equivalent to token membership in the whitespace-split value. -/
theorem includesOuter_unique_iff {k val : Str} (hval : val ≠ []) :
    ∀ l : List Attribute,
      l.countP (fun a => decide (a.key = k)) ≤ 1 →
      (includesOuter k val l = true ↔
        ∃ a ∈ l, a.key = k ∧ val ∈ wsSplit a.val) := by
  intro l
  induction l with
  | nil => simp [includesOuter]
  | cons a rest ih =>
    intro hcount
    by_cases ha : a.key = k
    · have hrest0 : rest.countP (fun x => decide (x.key = k)) = 0 := by
        rw [List.countP_cons_of_pos _ _ (by simpa using ha)] at hcount
        omega
      have hrest : ∀ x ∈ rest, x.key ≠ k := by
        intro x hx
        have := List.countP_eq_zero.mp hrest0 x hx
        simpa using this
      rw [includesOuter, if_pos ha]
      cases hscan : includesScan val a.val with
      | some bres =>
        cases bres with
        | true =>
          constructor
          · intro _
            exact ⟨a, List.mem_cons_self a rest, ha,
              (includesScan_some_true_iff hval a.val).mp hscan⟩
          · intro _
            rfl
        | false =>
          constructor
          · intro hfalse
            exact Bool.noConfusion hfalse
          · rintro ⟨x, hx, hxk, hxv⟩
            rcases List.mem_cons.mp hx with h | h
            · have := (includesScan_some_true_iff hval x.val).mpr hxv
              rw [← h] at hscan
              rw [this] at hscan
              exact Bool.noConfusion (Option.some.inj hscan)
            · exact absurd hxk (hrest x h)
      | none =>
        rw [includesOuter_of_no_key hrest]
        constructor
        · intro hfalse
          exact Bool.noConfusion hfalse
        · rintro ⟨x, hx, hxk, hxv⟩
          rcases List.mem_cons.mp hx with h | h
          · have := (includesScan_some_true_iff hval x.val).mpr hxv
            rw [← h] at hscan
            rw [this] at hscan
            exact Option.noConfusion hscan
          · exact absurd hxk (hrest x h)
    · rw [includesOuter, if_neg ha]
      have hcount' : rest.countP (fun x => decide (x.key = k)) ≤ 1 := by
        rw [List.countP_cons_of_neg _ _ (by simpa using ha)] at hcount
        exact hcount
      rw [ih hcount']
      constructor
      · rintro ⟨x, hx, hxk, hxv⟩
        exact ⟨x, List.mem_cons_of_mem a hx, hxk, hxv⟩
      · rintro ⟨x, hx, hxk, hxv⟩
        rcases List.mem_cons.mp hx with h | h
        · exact absurd (h ▸ hxk) ha
        · exact ⟨x, h, hxk, hxv⟩

/-- Claim C4 counterexample: the node has an attribute with key k whose
whitespace-split value contains the token v, yet the includes selector
returns false — the scan of the first k attribute ("x", whitespace-free)
returns early and the matching duplicate is never examined. -/
theorem c4_counterexample :
    attributeIncludesSelector ['k'] ['v'] dupIncNode = false ∧
    ∃ a ∈ dupIncNode.attr, a.key = toLowerASCII ['k'] ∧ ['v'] ∈ wsSplit a.val := by
  refine ⟨?_, by decide⟩
  simp [attributeIncludesSelector, includesOuter, includesScan, indexAny, isSpaceGo,
    dupIncNode, toLowerASCII, lowerChar, Node.attr]

/-- Claim C4 (amended): on nodes carrying the (lowercased) key at most
once and for nonempty v, the includes selector is true exactly when the
attribute's value, split on the five ASCII whitespace characters, has a
token equal to v; and whenever v contains one of those five characters
the selector is false on every node. -/
theorem c4_includes_tokens (key val : Str) :
    (∀ n : Node,
      n.attr.countP (fun a => decide (a.key = toLowerASCII key)) ≤ 1 →
      val ≠ [] →
      (attributeIncludesSelector key val n = true ↔
        ∃ a ∈ n.attr, a.key = toLowerASCII key ∧ val ∈ wsSplit a.val)) ∧
    (∀ n : Node, (∃ c ∈ val, isSpaceGo c = true) →
      attributeIncludesSelector key val n = false) := by
  constructor
  · intro n hcount hval
    exact includesOuter_unique_iff hval n.attr hcount
  · intro n hws
    have hall : ∀ l, includesOuter (toLowerASCII key) val l = false := by
      intro l
      induction l with
      | nil => rfl
      | cons a rest ih =>
        rw [includesOuter]
        by_cases ha : a.key = toLowerASCII key
        · rw [if_pos ha]
          cases hscan : includesScan val a.val with
          | some bres =>
            cases bres with
            | true => exact absurd hscan (includesScan_not_some_true_of_ws hws a.val)
            | false => rfl
          | none => exact ih
        · rw [if_neg ha]
          exact ih
    exact hall n.attr

theorem c4_witness :
    (attributeIncludesSelector ['t'] ['v'] incNodeW = true ↔
      ∃ a ∈ incNodeW.attr, a.key = toLowerASCII ['t'] ∧ ['v'] ∈ wsSplit a.val) ∧
    attributeIncludesSelector ['t'] [' '] incNodeW = false :=
  ⟨(c4_includes_tokens ['t'] ['v']).1 incNodeW (by decide) (by decide),
   (c4_includes_tokens ['t'] [' ']).2 incNodeW (by decide)⟩

/-- Claim C10 counterexample: with two k attributes whose first value "x"
contains no matching token, the includes selector does not keep scanning:
the node whose attribute list is only the second pair matches, but the
two-pair node does not. -/
theorem c10_counterexample :
    attributeIncludesSelector ['k'] ['v'] dupIncNode = false ∧
    attributeIncludesSelector ['k'] ['v'] sndIncNode = true := by
  constructor <;>
    simp [attributeIncludesSelector, includesOuter, includesScan, indexAny, isSpaceGo,
      dupIncNode, sndIncNode, toLowerASCII, lowerChar, Node.attr]

/-- Claim C10 (amended): with duplicate keys, the equals, dashmatch,
prefix, suffix and substring selectors return the comparison of the first
pair carrying the key and ignore all later pairs; the includes selector
returns the first pair's scan result when that scan returns, and falls
through to the later pairs only when the scan exhausts the value, which
happens only for an empty value or one ending in a whitespace character. -/
theorem c10_first_pair_wins (key val : Str) (n : Node) (pre post : List Attribute)
    (a : Attribute) (hattr : n.attr = pre ++ a :: post)
    (hpre : ∀ x ∈ pre, x.key ≠ toLowerASCII key) (ha : a.key = toLowerASCII key) :
    attributeEqualsSelector key val n = decide (a.val = val) ∧
    attributeDashmatchSelector key val n = dashmatchVal val a.val ∧
    attributePrefixSelector key val n = val.isPrefixOf a.val ∧
    attributeSuffixSelector key val n = val.isSuffixOf a.val ∧
    attributeSubstringSelector key val n = containsSub a.val val ∧
    (∀ bres, includesScan val a.val = some bres →
      attributeIncludesSelector key val n = bres) ∧
    (includesScan val a.val = none →
      attributeIncludesSelector key val n = includesOuter (toLowerASCII key) val post) ∧
    (includesScan val a.val = none →
      a.val = [] ∨ ∃ t c, a.val = t ++ [c] ∧ isSpaceGo c = true) := by
  refine ⟨?_, ?_, ?_, ?_, ?_, ?_, ?_, ?_⟩
  · show firstKeyLoop (toLowerASCII key) (fun s => decide (s = val)) n.attr = _
    rw [hattr]
    exact firstKeyLoop_append _ hpre ha
  · show firstKeyLoop (toLowerASCII key) (fun s => dashmatchVal val s) n.attr = _
    rw [hattr]
    exact firstKeyLoop_append _ hpre ha
  · show firstKeyLoop (toLowerASCII key) (fun s => val.isPrefixOf s) n.attr = _
    rw [hattr]
    exact firstKeyLoop_append _ hpre ha
  · show firstKeyLoop (toLowerASCII key) (fun s => val.isSuffixOf s) n.attr = _
    rw [hattr]
    exact firstKeyLoop_append _ hpre ha
  · show firstKeyLoop (toLowerASCII key) (fun s => containsSub s val) n.attr = _
    rw [hattr]
    exact firstKeyLoop_append _ hpre ha
  · intro bres hscan
    show includesOuter (toLowerASCII key) val n.attr = bres
    rw [hattr, includesOuter_append hpre ha, hscan]
  · intro hscan
    show includesOuter (toLowerASCII key) val n.attr = _
    rw [hattr, includesOuter_append hpre ha, hscan]
  · exact fun hscan => includesScan_none_decomp a.val hscan

theorem c10_witness :
    attributeEqualsSelector ['k'] ['v'] c10NodeW =
      decide ((Attribute.mk ['k'] ['v']).val = ['v']) :=
  (c10_first_pair_wins ['k'] ['v'] c10NodeW [⟨['a'], ['z']⟩] [⟨['k'], ['w']⟩]
    ⟨['k'], ['v']⟩ rfl (by decide) (by decide)).1

end Cascadia
